import Mathlib

/-!
Verification development for the batch-construction and sync-index subsystem
of the SFS file-synchronization service.

The Go source is shallowly embedded as executable Lean definitions:

* `pkg/files/batch.go`  — `Batch`, `NewBatch`, `NewTestBatch`, `HasFile`,
  `AddFiles` (with its scan loop made explicit as `addFilesLoop`) and
  `AddLgFiles`.
* `pkg/service/queue.go` — `Queue`, `NewQ`, `Enqueue`, `Dequeue`
  (the variant whose `Dequeue` reports an error on an empty queue).
* `pkg/service/sync.go`  — `SyncIndex`, `NewSyncIndex`, `GetFiles`,
  `wontFit`, `Prune`, `GetLargeFiles`, `buildQ`, `BuildQ`, `LargeFileQ`,
  `BuildSyncIndex`, `BuildToUpdate`.
* `pkg/service/dirs.go`  — `Directory`, `buildSync`, `walkS`, `buildUpdate`,
  `walkU`.

Modelling conventions: Go `int64`/`int` become `Int` or `Nat` (the magnitudes
involved are far from overflow, and no operation in the embedded code relies
on wrap-around); `time.Time` values become integer timestamps, with
`t1.Sub(t2) > 0` rendered as `t2 < t1`; Go maps become association lists
threaded in program order (map-iteration order in Go is unspecified, and every
theorem below is either order-independent or exhibits a divergence that holds
for every iteration order); pointer mutation becomes explicit state passing —
along the paths the embedded functions actually execute, the two coincide.
Fields that the embedded operations never read (UUIDs, file paths, checksums,
log-only names) are omitted. The unbounded `for` loop of `buildQ` is embedded
with explicit fuel, returning `none` when the fuel is exhausted; a proof that
the result is `none` for every fuel value is a proof of non-termination of the
source loop.
-/

/-- A file descriptor: identity, byte size (`File.Size()` in the source,
an `int64` queried from storage) and last-modification timestamp
(`File.LastSync`, a `time.Time`). -/
structure File where
  id : String
  size : Int
  lastSync : Int
deriving DecidableEq, Repr

/-- `const MAX int64 = 1e+9` from `pkg/files/batch.go`: the maximum batch
capacity in bytes. -/
def MAX : Int := 1000000000

/-- `BatchStatus` from `pkg/files/batch.go`. `NoStatus` is the zero value
returned by the final `return nil, 0` of `AddFiles`. -/
inductive BatchStatus where
  | NoStatus
  | Success
  | UnderCap
  | CapMaxed
deriving DecidableEq, Repr

/-- `Batch` from `pkg/files/batch.go`: remaining capacity `Cap`, member count
`Total`, the `Full` flag, and the members map `Files` (key = file ID),
embedded as an association list in insertion order. The UUID field is omitted
(never read by the embedded operations). -/
structure Batch where
  Cap : Int
  Total : Nat
  Full : Bool
  Files : List (String × File)
deriving DecidableEq, Repr

/-- `NewBatch()`: fresh batch with capacity `MAX` and no members. -/
def NewBatch : Batch :=
  { Cap := MAX, Total := 0, Full := false, Files := [] }

/-- `NewTestBatch(cap)`: a fresh batch whose capacity is overridden. -/
def NewTestBatch (cap : Int) : Batch :=
  { NewBatch with Cap := cap }

/-- `(b *Batch) HasFile(id)`: membership test on the members map. -/
def Batch.HasFile (b : Batch) (id : String) : Bool :=
  b.Files.any (fun p => p.1 == id)

/-- The scan loop of `(b *Batch) AddFiles(files)` (batch.go lines 89-124),
with the `added`, `notAdded` and `ignored` accumulators explicit. For each
candidate in order: a duplicate of an existing member is ignored; otherwise,
if the candidate fits (`b.Cap - f.Size() >= 0`) it is added to the members
map, the capacity is decremented and `Total` incremented, and the scan stops
immediately when the capacity reaches exactly 0; otherwise the candidate is
recorded as `notAdded` and the scan continues. -/
def addFilesLoop (b : Batch) (files added notAdded ignored : List File) :
    Batch × List File × List File × List File :=
  match files with
  | [] => (b, added, notAdded, ignored)
  | f :: rest =>
    if ¬ b.HasFile f.id then
      if b.Cap - f.size ≥ 0 then
        let b1 : Batch :=
          { b with Files := b.Files ++ [(f.id, f)],
                   Cap := b.Cap - f.size,
                   Total := b.Total + 1 }
        if b1.Cap = 0 then
          (b1, added ++ [f], notAdded, ignored)
        else
          addFilesLoop b1 rest (added ++ [f]) notAdded ignored
      else
        addFilesLoop b rest added (notAdded ++ [f]) ignored
    else
      addFilesLoop b rest added notAdded (ignored ++ [f])

/-- Modelled from the spec: the list-difference helper `Diff` called by
`AddFiles` (batch.go line 143, `Diff(added, files)`) and by `Prune`
(sync.go line 173, `Diff(files, lgf)`) is code of this repository whose
definition is not under `src/`. The spec describes the two call sites as
"leftover = set-difference(original candidates, placed candidates) — i.e.,
every candidate not successfully placed, in original order" and "partition a
raw file list into those under and at/over the maximum capacity". Both are
matched by the symmetric difference on file IDs: the elements of the first
list whose ID does not occur in the second (in first-list order), followed by
the elements of the second list whose ID does not occur in the first (in
second-list order); at each call site one argument is a subset of the other,
so one of the two halves is empty. -/
def Diff (a b : List File) : List File :=
  a.filter (fun f => ¬ b.any (fun g => g.id == f.id)) ++
    b.filter (fun f => ¬ a.any (fun g => g.id == f.id))

/-- `(b *Batch) AddFiles(files)` (batch.go lines 80-155): run the scan loop,
then classify. All candidates added → `(added, Success)`; capacity still at
`MAX` with candidates remaining → mark the batch full and return
`(Diff(added, files), CapMaxed)`; size-rejected candidates with capacity
below `MAX` → `(notAdded, UnderCap)`; otherwise `(nil, 0)`. The mutated
batch is returned as the first component. -/
def AddFiles (b : Batch) (files : List File) :
    Batch × List File × BatchStatus :=
  match addFilesLoop b files [] [] [] with
  | (b1, added, notAdded, _ignored) =>
    if added.length = files.length then
      (b1, added, BatchStatus.Success)
    else if b1.Cap = MAX ∧ added.length < files.length then
      ({ b1 with Full := true }, Diff added files, BatchStatus.CapMaxed)
    else if 0 < notAdded.length ∧ b1.Cap < MAX then
      (b1, notAdded, BatchStatus.UnderCap)
    else
      (b1, [], BatchStatus.NoStatus)

/-- Go map assignment `m[k] = v` on a `map[string]*File` embedded on
association lists: replace the value at an existing key, otherwise append. -/
def setKey (m : List (String × File)) (k : String) (v : File) :
    List (String × File) :=
  if m.any (fun p => p.1 == k) then
    m.map (fun p => if p.1 == k then (k, v) else p)
  else
    m ++ [(k, v)]

/-- Go map lookup on an association list: value at the first matching key. -/
def lookupKey {α : Type} : List (String × α) → String → Option α
  | [], _ => none
  | p :: rest, k => if p.1 == k then some p.2 else lookupKey rest k

/-- `(b *Batch) AddLgFiles(files)` (batch.go lines 158-166): error on an
empty list, otherwise `b.Files[f.ID] = f` for each file. `b.Total` is not
touched by the source. -/
def AddLgFiles (b : Batch) (files : List File) : Except String Batch :=
  if files.length = 0 then
    Except.error "no files were added"
  else
    Except.ok { b with Files := files.foldl (fun m f => setKey m f.id f) b.Files }

-- ------ queue (pkg/service/queue.go, the error-returning variant) ------

/-- `Queue` from `pkg/service/queue.go`: `Total` is the batch count (a Go
`int`, hence `Int` here), `Queue` the batch slice. -/
structure Queue where
  Total : Int
  Queue : List Batch
deriving DecidableEq, Repr

/-- `NewQ()`: empty queue. -/
def NewQ : Queue :=
  { Total := 0, Queue := [] }

/-- `(q *Queue) Enqueue(b)`: append to the tail, increment `Total`. -/
def Enqueue (q : Queue) (b : Batch) : Queue :=
  { Total := q.Total + 1, Queue := q.Queue ++ [b] }

/-- `(q *Queue) Dequeue()`: on an empty queue return an error (modelled as
`none`) with the queue unchanged; otherwise remove and return the head and
decrement `Total`. -/
def Dequeue (q : Queue) : Option Batch × Queue :=
  match q.Queue with
  | [] => (none, q)
  | b :: rest => (some b, { Total := q.Total - 1, Queue := rest })

-- ------ sync index (pkg/service/sync.go) ------

/-- `SyncIndex` from `pkg/service/sync.go`: `UserID`, the baseline map
`LastSync` (file ID → last-modified timestamp) and the pending map `ToUpdate`
(file ID → file), both embedded as association lists. The JSON file-path
field and the `Sync` flag are omitted (never read by the embedded
operations). -/
structure SyncIndex where
  UserID : String
  LastSync : List (String × Int)
  ToUpdate : List (String × File)
deriving DecidableEq, Repr

/-- `NewSyncIndex(userID)`: empty index for an owner. -/
def NewSyncIndex (userID : String) : SyncIndex :=
  { UserID := userID, LastSync := [], ToUpdate := [] }

/-- `(s *SyncIndex) GetFiles()`: `nil` (here `none`) when `ToUpdate` is
empty, otherwise the values of the `ToUpdate` map. -/
def SyncIndex.GetFiles (s : SyncIndex) : Option (List File) :=
  if s.ToUpdate.length = 0 then none
  else some (s.ToUpdate.map (fun p => p.2))

-- ------ directory walks (pkg/service/dirs.go) ------

/-- `Directory` from `pkg/service/dirs.go`, restricted to the fields the
embedded walks read: the owner identity, the files map (embedded as the list
of its values) and the subdirectories map (embedded as the list of its
values). All other fields (UUID, name, paths, security attributes, parent
pointer) are never read by `walkS`/`walkU` and are omitted. -/
inductive Directory where
  | mk (owner : String) (files : List File) (dirs : List Directory)

/-- Owner accessor (the `Owner`/`OwnerID` field). -/
def Directory.Owner : Directory → String
  | .mk o _ _ => o

/-- Files accessor (the `Files` map, as its list of values). -/
def Directory.Files : Directory → List File
  | .mk _ fs _ => fs

/-- Subdirectories accessor (the `Dirs` map, as its list of values). -/
def Directory.Dirs : Directory → List Directory
  | .mk _ _ ds => ds

/-- `buildSync(dir, idx)` (dirs.go lines 686-693): for each file of the
directory, record its current timestamp in `LastSync` unless the ID is
already present. -/
def buildSync (dir : Directory) (idx : SyncIndex) : SyncIndex :=
  { idx with
      LastSync :=
        dir.Files.foldl
          (fun m f =>
            if m.any (fun p => p.1 == f.id) then m
            else m ++ [(f.id, f.lastSync)])
          idx.LastSync }

mutual

/-- `walkS(dir, idx)` (dirs.go lines 704-720): record the directory's own
files via `buildSync`; if there are no subdirectories return the index;
otherwise recurse into the subdirectories in order and return the first
non-nil result (the `return sIndx` inside the range loop). -/
def walkS : Directory → SyncIndex → Option SyncIndex
  | Directory.mk o fs ds, idx =>
    let idx1 := if fs.length > 0 then buildSync (Directory.mk o fs ds) idx else idx
    if ds.length = 0 then some idx1
    else walkSList ds idx1

/-- The `for _, subDirs := range dir.Dirs` loop of `walkS`: return the first
non-nil recursive result, `nil` (`none`) if every call returned nil. -/
def walkSList : List Directory → SyncIndex → Option SyncIndex
  | [], _ => none
  | d :: rest, idx =>
    match walkS d idx with
    | some s => some s
    | none => walkSList rest idx

end

/-- The loop body of `buildUpdate` (dirs.go lines 723-733): if the file's ID
is present in the baseline `ls` and its current timestamp is strictly newer
(`file.LastSync.Sub(idx.LastSync[file.ID]) > 0`), assign the file into the
`ToUpdate` accumulator; otherwise leave the accumulator unchanged. -/
def updStep (ls : List (String × Int)) (m : List (String × File)) (f : File) :
    List (String × File) :=
  match lookupKey ls f.id with
  | some t => if f.lastSync - t > 0 then setKey m f.id f else m
  | none => m

/-- `buildUpdate(d, idx)` (dirs.go lines 722-735): for each file of the
directory, if its ID is present in `LastSync` and its current timestamp is
strictly newer than the baseline, assign it into `ToUpdate`; files absent
from `LastSync` are skipped. -/
def buildUpdate (d : Directory) (idx : SyncIndex) : SyncIndex :=
  { idx with ToUpdate := d.Files.foldl (updStep idx.LastSync) idx.ToUpdate }

mutual

/-- `walkU(dir, idx)` (dirs.go lines 745-761): same traversal shape as
`walkS`, applying `buildUpdate` at each visited directory. -/
def walkU : Directory → SyncIndex → Option SyncIndex
  | Directory.mk o fs ds, idx =>
    let idx1 := if fs.length > 0 then buildUpdate (Directory.mk o fs ds) idx else idx
    if ds.length = 0 then some idx1
    else walkUList ds idx1

/-- The `for _, subDirs := range dir.Dirs` loop of `walkU`. -/
def walkUList : List Directory → SyncIndex → Option SyncIndex
  | [], _ => none
  | d :: rest, idx =>
    match walkU d idx with
    | some s => some s
    | none => walkUList rest idx

end

/-- `BuildSyncIndex(root)` (sync.go lines 117-123): build a fresh index owned
by the root's owner and populate it with `root.WalkS`. -/
def BuildSyncIndex (root : Directory) : Option SyncIndex :=
  walkS root (NewSyncIndex root.Owner)

/-- `BuildToUpdate(root, idx)` (sync.go lines 132-137): populate `ToUpdate`
with `root.WalkU`. -/
def BuildToUpdate (root : Directory) (idx : SyncIndex) : Option SyncIndex :=
  walkU root idx

-- ------ transfers (pkg/service/sync.go) ------

/-- `wontFit(files, limit)` (sync.go lines 159-167): true when every file in
the slice is strictly larger than `limit`. -/
def wontFit (files : List File) (limit : Int) : Bool :=
  (files.countP (fun f => f.size > limit)) = files.length

/-- `GetLargeFiles(files)` (sync.go lines 180-191): the files strictly larger
than `MAX`, in input order. -/
def GetLargeFiles (files : List File) : List File :=
  if files.length = 0 then []
  else files.filter (fun f => f.size > MAX)

/-- `Prune(files)` (sync.go lines 171-174): `Diff(files, GetLargeFiles
(files))`. -/
def Prune (files : List File) : List File :=
  Diff files (GetLargeFiles files)

/-- `buildQ(f, b, q)` (sync.go lines 195-220), with explicit fuel for the
unbounded `for len(f) > 0` loop; `none` means the fuel ran out. Per
iteration: `AddFiles` on the current batch; `Success` → enqueue and return;
`CapMaxed` → enqueue and start a fresh batch; `UnderCap` → if none of the
leftover fits the current batch and the batch is non-empty, enqueue and
start a fresh batch; in every case continue with the leftover as the new
file list. -/
def buildQ (fuel : Nat) (f : List File) (b : Batch) (q : Queue) : Option Queue :=
  match fuel with
  | 0 => if f.length = 0 then some q else none
  | fuel1 + 1 =>
    if f.length = 0 then some q
    else
      match AddFiles b f with
      | (b1, _lo, BatchStatus.Success) => some (Enqueue q b1)
      | (b1, lo, BatchStatus.CapMaxed) => buildQ fuel1 lo NewBatch (Enqueue q b1)
      | (b1, lo, BatchStatus.UnderCap) =>
        if wontFit lo b1.Cap then
          if 0 < b1.Files.length then buildQ fuel1 lo NewBatch (Enqueue q b1)
          else buildQ fuel1 lo b1 q
        else buildQ fuel1 lo b1 q
      | (b1, lo, BatchStatus.NoStatus) => buildQ fuel1 lo b1 q

/-- `LargeFileQ(files)` (sync.go lines 247-253): a fresh batch, `AddLgFiles`
(whose error, raised only on an empty list, is ignored by the source), and a
fresh queue holding just that batch. -/
def LargeFileQ (files : List File) : Queue :=
  let b :=
    match AddLgFiles NewBatch files with
    | Except.ok b1 => b1
    | Except.error _ => NewBatch
  Enqueue NewQ b

/-- `BuildQ(idx)` (sync.go lines 227-244): extract the changed files
(`nil`/empty → `nil` result); if every file individually exceeds `MAX`,
build the oversized single-batch queue via `LargeFileQ`; otherwise run
`buildQ` with a fresh batch and queue. The `fuel` parameter feeds the
embedded `buildQ` loop; `none` covers both the source's `nil` result and
fuel exhaustion. -/
def BuildQ (fuel : Nat) (idx : SyncIndex) : Option Queue :=
  match idx.GetFiles with
  | none => none
  | some files =>
    if files.length = 0 then none
    else if wontFit files MAX then some (LargeFileQ files)
    else buildQ fuel files NewBatch NewQ

/-- Sum of the member sizes of a batch's members map. -/
def sumSizes (m : List (String × File)) : Int :=
  (m.map (fun p => p.2.size)).sum

/-- A file that fits comfortably in a fresh batch. -/
def smallF : File := { id := "f1", size := 1, lastSync := 0 }

/-- A file strictly larger than the maximum batch capacity. -/
def hugeF : File := { id := "f2", size := MAX + 1, lastSync := 0 }

-- ==================== theorems ====================

-- C1 helper: once the unplaced list is the single oversized file and the
-- current batch is fresh, every iteration of `buildQ` reproduces exactly the
-- same unplaced list and a fresh batch (`AddFiles` reports `CapMaxed` with
-- leftover `Diff([], [hugeF]) = [hugeF]` and the loop enqueues an empty full
-- batch), so the loop never exits no matter how much fuel it is given.
theorem buildQ_stuck_on_huge (n : Nat) : ∀ q : Queue,
    buildQ n [hugeF] NewBatch q = none := by
  induction n with
  | zero => intro q; rfl
  | succ n ih =>
    intro q
    have h : buildQ (n + 1) [hugeF] NewBatch q =
        buildQ n [hugeF] NewBatch
          (Enqueue q { Cap := MAX, Total := 0, Full := true, Files := [] }) := rfl
    rw [h]
    exact ih _

/-- C1: the claim that `buildQ` terminates on every finite file list within
`len(files)+1` iterations is false: on the adversarial input the claim itself
names — a file that fits a fresh batch followed by a file whose size exceeds
`MAX` — the loop never terminates. The first iteration places the small file
and reports `UnderCap` with the oversized file as leftover; every later
iteration runs `AddFiles` on a fresh batch, gets `CapMaxed` with the very
same leftover, enqueues an empty full batch and repeats. Formally: for every
fuel value the fuelled embedding returns `none`. The `wontFit` guard in
`BuildQ` only intercepts lists in which every file is oversized, so it does
not prevent this. -/
theorem c1_buildQ_diverges_on_mixed_input (n : Nat) (q : Queue) :
    buildQ n [smallF, hugeF] NewBatch q = none := by
  cases n with
  | zero => rfl
  | succ n =>
    have h : buildQ (n + 1) [smallF, hugeF] NewBatch q =
        buildQ n [hugeF] NewBatch
          (Enqueue q { Cap := MAX - 1, Total := 1, Full := false,
                       Files := [("f1", smallF)] }) := rfl
    rw [h]
    exact buildQ_stuck_on_huge n _

/-- C4: conservation fails — the claim that every candidate ends up in
members, the ignored-duplicate set, or the returned leftover list is false at
a batch of capacity 2 given files of sizes 2 and 1: the first file lands
exactly on capacity 0, the scan breaks, and the second candidate is never
examined — it is absent from the members map (`[("a", _)]`), from the ignored
list (`[]`), from the rejected list (`[]`), and from the returned list (`[]`,
with status 0). -/
theorem c4_candidate_silently_dropped :
    addFilesLoop (NewTestBatch 2)
        [{ id := "a", size := 2, lastSync := 0 }, { id := "b", size := 1, lastSync := 0 }]
        [] [] [] =
      ({ Cap := 0, Total := 1, Full := false,
         Files := [("a", { id := "a", size := 2, lastSync := 0 })] },
       [{ id := "a", size := 2, lastSync := 0 }], [], []) ∧
    AddFiles (NewTestBatch 2)
        [{ id := "a", size := 2, lastSync := 0 }, { id := "b", size := 1, lastSync := 0 }] =
      ({ Cap := 0, Total := 1, Full := false,
         Files := [("a", { id := "a", size := 2, lastSync := 0 })] },
       [], BatchStatus.NoStatus) := by
  constructor
  · rfl
  · rfl

/-- C6 input: a root with no files of its own and two leaf subdirectories,
the first holding file `fa`, the second holding file `fb`. -/
def c6Root : Directory :=
  Directory.mk "owner1" []
    [Directory.mk "owner1" [{ id := "fa", size := 1, lastSync := 10 }] [],
     Directory.mk "owner1" [{ id := "fb", size := 1, lastSync := 20 }] []]

/-- C6: the claim that `BuildSyncIndex` records every file in every
subdirectory is false — `walkS` returns as soon as the recursion into the
first subdirectory yields a non-nil index, so the sibling subdirectory is
never visited: on `c6Root` the resulting `LastSync` holds `fa` but not `fb`
(whichever subdirectory Go's unspecified map order visits first, the other
one's file is omitted). The owner is taken from the root as claimed. -/
theorem c6_walk_stops_after_first_branch :
    BuildSyncIndex c6Root =
      some { UserID := "owner1", LastSync := [("fa", 10)], ToUpdate := [] } ∧
    (match BuildSyncIndex c6Root with
     | some idx => lookupKey idx.LastSync "fb" = none
     | none => False) := by
  constructor
  · rfl
  · rfl

/-- C8: the claim that `Total` equals the member count after `AddLgFiles` is
false — `AddLgFiles` inserts into the members map without ever touching
`Total` (contradicting the field's own documentation "total files in this
batch", on which `Queue.TotalFiles` relies): after adding one oversized file
to a fresh batch the members map has one entry while `Total` is still 0. -/
theorem c8_addLgFiles_leaves_total_stale :
    (AddLgFiles NewBatch [{ id := "a", size := MAX + 1, lastSync := 0 }]).toOption.map
        (fun b => b.Total) = some 0 ∧
    (AddLgFiles NewBatch [{ id := "a", size := MAX + 1, lastSync := 0 }]).toOption.map
        (fun b => b.Files.length) = some 1 := by
  constructor
  · rfl
  · rfl

/-- C9 counterexample: the boundary goes the other way — a file of size
exactly `MAX` ("at the maximum capacity") is claimed to land in the oversized
part, but `GetLargeFiles` keeps only files strictly larger than `MAX`, so the
size-`MAX` file lands in the pruned part instead. -/
theorem c9_file_at_max_is_pruned :
    GetLargeFiles [{ id := "m", size := MAX, lastSync := 0 }] = [] ∧
    Prune [{ id := "m", size := MAX, lastSync := 0 }] =
      [{ id := "m", size := MAX, lastSync := 0 }] := by
  constructor
  · rfl
  · rfl

/-- C3 counterexample: on a call in which every candidate is newly added, the
outcome is `Success` but the returned list is not empty — the source returns
the `added` list on success, not an empty leftover list: one fitting file
yields `([f], Success)`. -/
theorem c3_success_returns_added_list :
    AddFiles NewBatch [{ id := "a", size := 1, lastSync := 0 }] =
      ({ Cap := MAX - 1, Total := 1, Full := false,
         Files := [("a", { id := "a", size := 1, lastSync := 0 })] },
       [{ id := "a", size := 1, lastSync := 0 }], BatchStatus.Success) ∧
    ([{ id := "a", size := 1, lastSync := 0 }] : List File) ≠ [] := by
  constructor
  · rfl
  · simp

theorem sumSizes_append (m : List (String × File)) (p : String × File) :
    sumSizes (m ++ [p]) = sumSizes m + p.2.size := by
  simp [sumSizes]

theorem addFilesLoop_cap_inv (files : List File) :
    ∀ (b : Batch) (added notAdded ignored : List File) (k : Int),
      0 ≤ b.Cap → b.Cap + sumSizes b.Files = k →
      0 ≤ (addFilesLoop b files added notAdded ignored).1.Cap ∧
        (addFilesLoop b files added notAdded ignored).1.Cap +
          sumSizes (addFilesLoop b files added notAdded ignored).1.Files = k := by
  induction files with
  | nil =>
    intro b a na ig k h1 h2
    exact ⟨h1, h2⟩
  | cons f rest ih =>
    intro b a na ig k hc hk
    by_cases hdup : b.HasFile f.id = true
    · simp only [addFilesLoop, hdup, not_true_eq_false, if_false, ite_false]
      exact ih b a na (ig ++ [f]) k hc hk
    · by_cases hfit : b.Cap - f.size ≥ 0
      · by_cases hzero : b.Cap - f.size = 0
        · simp [addFilesLoop, hdup, hfit, hzero, sumSizes_append]
          omega
        · simp only [addFilesLoop, hdup, not_false_eq_true, ite_true, if_pos hfit,
            if_neg hzero]
          refine ih _ (a ++ [f]) na ig k ?_ ?_
          · show 0 ≤ b.Cap - f.size
            omega
          · show (b.Cap - f.size) + sumSizes (b.Files ++ [(f.id, f)]) = k
            rw [sumSizes_append]
            simp
            omega
      · simp only [addFilesLoop, hdup, not_false_eq_true, ite_true, if_neg hfit]
        exact ih b a (na ++ [f]) ig k hc hk

theorem addFiles_cap_inv (b : Batch) (files : List File) (k : Int)
    (hc : 0 ≤ b.Cap) (hk : b.Cap + sumSizes b.Files = k) :
    0 ≤ (AddFiles b files).1.Cap ∧
      (AddFiles b files).1.Cap + sumSizes (AddFiles b files).1.Files = k := by
  have h := addFilesLoop_cap_inv files b [] [] [] k hc hk
  unfold AddFiles
  rcases heq : addFilesLoop b files [] [] [] with ⟨b1, added, notAdded, ignored⟩
  rw [heq] at h
  dsimp only
  split_ifs <;> simpa using h

theorem foldl_addFiles_cap_inv (calls : List (List File)) :
    ∀ (b : Batch) (k : Int), 0 ≤ b.Cap → b.Cap + sumSizes b.Files = k →
      0 ≤ (calls.foldl (fun b fs => (AddFiles b fs).1) b).Cap ∧
        (calls.foldl (fun b fs => (AddFiles b fs).1) b).Cap +
          sumSizes (calls.foldl (fun b fs => (AddFiles b fs).1) b).Files = k := by
  induction calls with
  | nil =>
    intro b k hc hk
    exact ⟨hc, hk⟩
  | cons fs rest ih =>
    intro b k hc hk
    have h := addFiles_cap_inv b fs k hc hk
    exact ih _ k h.1 h.2

/-- C2: starting from a batch with non-negative initial capacity `c0` (the
source creates batches at `MAX` or at a test capacity), after every sequence
of `AddFiles` calls the remaining capacity plus the sum of the member sizes
equals `c0`, and the remaining capacity is non-negative — a file is only
added when `Cap - size ≥ 0` holds, which is exactly the guard in the scan
loop. Quantifying over all call sequences covers every prefix, i.e. the
state after each call. -/
theorem c2_capacity_invariant (c0 : Int) (h0 : 0 ≤ c0) (calls : List (List File)) :
    (calls.foldl (fun b fs => (AddFiles b fs).1) (NewTestBatch c0)).Cap +
        sumSizes (calls.foldl (fun b fs => (AddFiles b fs).1) (NewTestBatch c0)).Files = c0 ∧
      0 ≤ (calls.foldl (fun b fs => (AddFiles b fs).1) (NewTestBatch c0)).Cap := by
  have h := foldl_addFiles_cap_inv calls (NewTestBatch c0) c0 h0 (by simp [NewTestBatch, NewBatch, sumSizes])
  exact ⟨h.2, h.1⟩

/-- C2 witness: a 25000-byte batch given two calls (with an overlapping
duplicate and a too-large candidate among them) satisfies the capacity
accounting. -/
theorem c2_capacity_invariant_witness :
    (0 : Int) ≤ 25000 ∧
    (([[{ id := "w1", size := 9000, lastSync := 0 },
        { id := "w2", size := 20000, lastSync := 0 }],
       [{ id := "w2", size := 20000, lastSync := 0 },
        { id := "w3", size := 16000, lastSync := 0 }]] : List (List File)).foldl
          (fun b fs => (AddFiles b fs).1) (NewTestBatch 25000)).Cap +
        sumSizes (([[{ id := "w1", size := 9000, lastSync := 0 },
        { id := "w2", size := 20000, lastSync := 0 }],
       [{ id := "w2", size := 20000, lastSync := 0 },
        { id := "w3", size := 16000, lastSync := 0 }]] : List (List File)).foldl
          (fun b fs => (AddFiles b fs).1) (NewTestBatch 25000)).Files = 25000 ∧
      0 ≤ (([[{ id := "w1", size := 9000, lastSync := 0 },
        { id := "w2", size := 20000, lastSync := 0 }],
       [{ id := "w2", size := 20000, lastSync := 0 },
        { id := "w3", size := 16000, lastSync := 0 }]] : List (List File)).foldl
          (fun b fs => (AddFiles b fs).1) (NewTestBatch 25000)).Cap :=
  ⟨by decide, (c2_capacity_invariant 25000 (by decide) _).1, (c2_capacity_invariant 25000 (by decide) _).2⟩

/-- An abstract client operation on a queue: enqueue some batch, or dequeue. -/
inductive QueueOp where
  | enq (b : Batch)
  | deq

/-- Apply one operation to a queue (a `Dequeue` on an empty queue leaves the
queue unchanged, as the source returns an error without mutating). -/
def applyOp (q : Queue) : QueueOp → Queue
  | QueueOp.enq b => Enqueue q b
  | QueueOp.deq => (Dequeue q).2

theorem applyOp_preserves (q : Queue) (op : QueueOp)
    (h : q.Total = q.Queue.length) :
    (applyOp q op).Total = (applyOp q op).Queue.length := by
  cases op with
  | enq b => simp [applyOp, Enqueue, h]
  | deq =>
    cases hq : q.Queue with
    | nil => simpa [applyOp, Dequeue, hq] using h
    | cons b rest =>
      simp [applyOp, Dequeue, hq, h]

/-- C10: starting from `NewQ`, every sequence of `Enqueue`/`Dequeue`
operations keeps `Total` equal to the length of the internal batch slice,
and `Dequeue` on any empty queue signals the error (`none`) and returns the
queue unchanged — neither `Total` nor the slice is modified. -/
theorem c10_queue_total_invariant (ops : List QueueOp) :
    (ops.foldl applyOp NewQ).Total = (ops.foldl applyOp NewQ).Queue.length ∧
      ∀ q : Queue, q.Queue = [] → Dequeue q = (none, q) := by
  constructor
  · have main : ∀ (l : List QueueOp) (q : Queue), q.Total = q.Queue.length →
        (l.foldl applyOp q).Total = (l.foldl applyOp q).Queue.length := by
      intro l
      induction l with
      | nil => intro q h; exact h
      | cons op rest ih =>
        intro q h
        exact ih _ (applyOp_preserves q op h)
    exact main ops NewQ (by simp [NewQ])
  · intro q hq
    simp [Dequeue, hq]

/-- C10 witness: the invariant holds after a concrete operation sequence, and
dequeueing the empty `NewQ` reports the error with the queue untouched. -/
theorem c10_queue_total_invariant_witness :
    (([QueueOp.enq NewBatch, QueueOp.deq, QueueOp.deq] : List QueueOp).foldl
        applyOp NewQ).Total =
      (([QueueOp.enq NewBatch, QueueOp.deq, QueueOp.deq] : List QueueOp).foldl
        applyOp NewQ).Queue.length ∧
    NewQ.Queue = [] ∧ Dequeue NewQ = (none, NewQ) :=
  ⟨(c10_queue_total_invariant [QueueOp.enq NewBatch, QueueOp.deq, QueueOp.deq]).1,
   rfl,
   (c10_queue_total_invariant []).2 NewQ rfl⟩

-- C3 helper: when every candidate is new to the batch, has a non-negative
-- size, carries a distinct ID, and the combined size fits within the
-- remaining capacity — either strictly below it, or exactly filling it with
-- every size positive (so the exactly-zero break can only fire at the last
-- candidate) — the scan adds every candidate and rejects or ignores none.
theorem addFilesLoop_all_added (files : List File) :
    ∀ (b : Batch) (added notAdded ignored : List File),
      (∀ f ∈ files, b.HasFile f.id = false) →
      (files.map File.id).Nodup →
      (∀ f ∈ files, 0 ≤ f.size) →
      (files.map File.size).sum ≤ b.Cap →
      ((files.map File.size).sum < b.Cap ∨ ∀ f ∈ files, 0 < f.size) →
      ∃ b1 : Batch, addFilesLoop b files added notAdded ignored =
        (b1, added ++ files, notAdded, ignored) := by
  induction files with
  | nil =>
    intro b a na ig _ _ _ _ _
    exact ⟨b, by simp [addFilesLoop]⟩
  | cons f rest ih =>
    intro b a na ig hfresh hnodup hnonneg hsum hcase
    have hrest0 : 0 ≤ (rest.map File.size).sum :=
      List.sum_nonneg (by
        intro x hx
        obtain ⟨g, hg, rfl⟩ := List.mem_map.mp hx
        exact hnonneg g (List.mem_cons_of_mem f hg))
    have hsum1 : f.size + (rest.map File.size).sum ≤ b.Cap := by
      simpa using hsum
    have hfit : b.Cap - f.size ≥ 0 := by omega
    have hhead : b.HasFile f.id = false := hfresh f (List.mem_cons_self f rest)
    have hnotin : f.id ∉ rest.map File.id := by
      have h := hnodup
      simp only [List.map_cons, List.nodup_cons] at h
      exact h.1
    by_cases hzero : b.Cap - f.size = 0
    · have hrestnil : rest = [] := by
        rcases hcase with hlt | hpos
        · exfalso
          have hlt1 : f.size + (rest.map File.size).sum < b.Cap := by
            simpa using hlt
          omega
        · cases hrr : rest with
          | nil => rfl
          | cons g rs =>
            exfalso
            have hgpos : 0 < g.size :=
              hpos g (by rw [hrr]; exact List.mem_cons_of_mem f (List.mem_cons_self g rs))
            have hrs0 : 0 ≤ (rs.map File.size).sum :=
              List.sum_nonneg (by
                intro x hx
                obtain ⟨y, hy, rfl⟩ := List.mem_map.mp hx
                refine hnonneg y ?_
                rw [hrr]
                exact List.mem_cons_of_mem f (List.mem_cons_of_mem g hy))
            rw [hrr] at hsum1
            simp only [List.map_cons, List.sum_cons] at hsum1
            omega
      subst hrestnil
      refine ⟨{ b with Files := b.Files ++ [(f.id, f)],
                       Cap := b.Cap - f.size,
                       Total := b.Total + 1 }, ?_⟩
      simp only [addFilesLoop, hhead]
      rw [if_pos (show ¬ (false = true) by decide), if_pos hfit]
      split_ifs
      all_goals rfl
    · obtain ⟨b2, hrec⟩ := ih
        { b with Files := b.Files ++ [(f.id, f)],
                 Cap := b.Cap - f.size,
                 Total := b.Total + 1 }
        (a ++ [f]) na ig
        (by
          intro g hg
          have hne : f.id ≠ g.id := by
            intro hcontra
            exact hnotin (hcontra ▸ List.mem_map_of_mem File.id hg)
          have hg0 : Batch.HasFile b g.id = false := hfresh g (List.mem_cons_of_mem f hg)
          simp [Batch.HasFile] at hg0 ⊢
          constructor
          · exact hg0
          · exact hne)
        (by
          have h := hnodup
          simp only [List.map_cons, List.nodup_cons] at h
          exact h.2)
        (fun g hg => hnonneg g (List.mem_cons_of_mem f hg))
        (by
          show (rest.map File.size).sum ≤ b.Cap - f.size
          omega)
        (by
          rcases hcase with hlt | hpos
          · left
            show (rest.map File.size).sum < b.Cap - f.size
            have hlt1 : f.size + (rest.map File.size).sum < b.Cap := by
              simpa using hlt
            omega
          · right
            exact fun g hg => hpos g (List.mem_cons_of_mem f hg))
      refine ⟨b2, ?_⟩
      simp only [addFilesLoop, hhead]
      norm_num
      rw [if_neg hzero]
      rw [hrec]
      simp
      intro hlt
      exact absurd hlt (by omega)

/-- C3 (amended): when every candidate in the call is newly added to the
batch — no duplicates of existing members, distinct IDs, non-negative sizes,
and a combined size within the remaining capacity (strictly below it, or
exactly filling it with every size positive, in which case the exactly-zero
early exit can only fire at the last candidate) — the outcome is `Success`
and the returned list is the list of added files, which equals the whole
input (no candidate is left unplaced). The original claim's "leftover list is
empty" is replaced by "returned list = the added files", because on success
the source returns `added`, not an empty leftover list. -/
theorem c3_all_added_is_success (b : Batch) (files : List File)
    (hfresh : ∀ f ∈ files, b.HasFile f.id = false)
    (hnodup : (files.map File.id).Nodup)
    (hnonneg : ∀ f ∈ files, 0 ≤ f.size)
    (hsum : (files.map File.size).sum ≤ b.Cap)
    (hcase : (files.map File.size).sum < b.Cap ∨ ∀ f ∈ files, 0 < f.size) :
    (AddFiles b files).2.2 = BatchStatus.Success ∧
      (AddFiles b files).2.1 = files := by
  obtain ⟨b1, heq⟩ :=
    addFilesLoop_all_added files b [] [] [] hfresh hnodup hnonneg hsum hcase
  unfold AddFiles
  rw [heq]
  dsimp only
  simp

/-- C3 witness: a batch of capacity 3 given two fresh files of sizes 1 and 2
— an exact capacity fill — adds both, the outcome is `Success`, and the
returned list is the input list. -/
theorem c3_all_added_is_success_witness :
    (AddFiles (NewTestBatch 3)
        [{ id := "a", size := 1, lastSync := 0 }, { id := "b", size := 2, lastSync := 0 }]).2.2 =
      BatchStatus.Success ∧
    (AddFiles (NewTestBatch 3)
        [{ id := "a", size := 1, lastSync := 0 }, { id := "b", size := 2, lastSync := 0 }]).2.1 =
      [{ id := "a", size := 1, lastSync := 0 }, { id := "b", size := 2, lastSync := 0 }] :=
  c3_all_added_is_success (NewTestBatch 3) _ (by decide) (by decide) (by decide) (by decide)
    (Or.inr (by decide))

-- C5 helper: folding Go map assignment over files whose IDs are pairwise
-- distinct and absent from the accumulator appends one entry per file.
theorem foldl_setKey_fresh (files : List File) :
    ∀ m : List (String × File),
      (files.map File.id).Nodup →
      (∀ f ∈ files, m.any (fun p => p.1 == f.id) = false) →
      files.foldl (fun m f => setKey m f.id f) m =
        m ++ files.map (fun f => (f.id, f)) := by
  induction files with
  | nil =>
    intro m _ _
    simp
  | cons f rest ih =>
    intro m hnodup hfresh
    have hstep : setKey m f.id f = m ++ [(f.id, f)] := by
      unfold setKey
      rw [if_neg]
      simp [hfresh f (List.mem_cons_self f rest)]
    have hnotin : f.id ∉ rest.map File.id := by
      have h := hnodup
      simp only [List.map_cons, List.nodup_cons] at h
      exact h.1
    have hrest : rest.foldl (fun m f => setKey m f.id f) (m ++ [(f.id, f)]) =
        (m ++ [(f.id, f)]) ++ rest.map (fun f => (f.id, f)) := by
      apply ih
      · have h := hnodup
        simp only [List.map_cons, List.nodup_cons] at h
        exact h.2
      · intro g hg
        have hne : (f.id == g.id) = false := by
          have : f.id ≠ g.id := by
            intro hcontra
            exact hnotin (hcontra ▸ List.mem_map_of_mem File.id hg)
          simpa using this
        simp [hfresh g (List.mem_cons_of_mem f hg), hne]
    simp only [List.foldl_cons, hstep, hrest]
    simp

-- C5 helper: `wontFit` is true when every file exceeds the limit.
theorem wontFit_of_all_big (files : List File) (limit : Int)
    (h : ∀ f ∈ files, limit < f.size) : wontFit files limit = true := by
  unfold wontFit
  simp only [decide_eq_true_eq]
  apply List.countP_eq_length.mpr
  intro f hf
  simpa using h f hf

/-- C5: when the `ToUpdate` map of a sync index is non-empty, its files carry
pairwise-distinct IDs, and every one of them is strictly larger than `MAX`,
`BuildQ` bypasses normal placement (`wontFit` intercepts before `buildQ` is
entered, so the fuel is irrelevant) and returns a queue holding exactly one
batch whose members map holds exactly those files, keyed by their IDs, as
inserted by `AddLgFiles`. -/
theorem c5_oversized_bypass (fuel : Nat) (idx : SyncIndex)
    (hne : idx.ToUpdate ≠ [])
    (hnodup : ((idx.ToUpdate.map (fun p => p.2)).map File.id).Nodup)
    (hbig : ∀ f ∈ idx.ToUpdate.map (fun p => p.2), MAX < f.size) :
    BuildQ fuel idx =
      some { Total := 1,
             Queue := [{ Cap := MAX, Total := 0, Full := false,
                         Files := (idx.ToUpdate.map (fun p => p.2)).map
                           (fun f => (f.id, f)) }] } := by
  have hlen : idx.ToUpdate.length ≠ 0 := by
    simpa [List.length_eq_zero] using hne
  have hmaplen : (idx.ToUpdate.map (fun p => p.2)).length ≠ 0 := by
    simpa [List.length_eq_zero] using hne
  have hwf := wontFit_of_all_big (idx.ToUpdate.map (fun p => p.2)) MAX hbig
  have hfold := foldl_setKey_fresh (idx.ToUpdate.map (fun p => p.2)) [] hnodup
    (by intro g _; rfl)
  unfold BuildQ SyncIndex.GetFiles
  rw [if_neg hlen]
  dsimp only
  rw [if_neg hmaplen, if_pos hwf]
  unfold LargeFileQ AddLgFiles
  rw [if_neg hmaplen]
  dsimp only [NewBatch]
  rw [hfold]
  simp [Enqueue, NewQ, NewBatch]

/-- C5 witness: an index with two oversized changed files yields the
single-batch oversized queue containing exactly those two files. -/
theorem c5_oversized_bypass_witness :
    BuildQ 0
        { UserID := "u",
          LastSync := [],
          ToUpdate := [("a", { id := "a", size := MAX + 1, lastSync := 0 }),
                       ("b", { id := "b", size := MAX + 2, lastSync := 0 })] } =
      some { Total := 1,
             Queue := [{ Cap := MAX, Total := 0, Full := false,
                         Files := [("a", { id := "a", size := MAX + 1, lastSync := 0 }),
                                   ("b", { id := "b", size := MAX + 2, lastSync := 0 })] }] } := by
  have h := c5_oversized_bypass 0
    { UserID := "u",
      LastSync := [],
      ToUpdate := [("a", { id := "a", size := MAX + 1, lastSync := 0 }),
                   ("b", { id := "b", size := MAX + 2, lastSync := 0 })] }
    (by decide) (by decide) (by decide)
  simpa using h

-- Association-list lemmas about the Go map embedding used by `buildUpdate`.

theorem lookupKey_append {α : Type} (m l2 : List (String × α)) (k : String) :
    lookupKey (m ++ l2) k =
      (match lookupKey m k with
       | some v => some v
       | none => lookupKey l2 k) := by
  induction m with
  | nil => rfl
  | cons a m ih =>
    by_cases h : a.1 == k <;> simp [lookupKey, h, ih]

theorem lookupKey_map_replace (m : List (String × File)) (k : String) (v : File) :
    lookupKey (m.map (fun p => if p.1 == k then (k, v) else p)) k =
      (lookupKey m k).map (fun _ => v) := by
  induction m with
  | nil => rfl
  | cons a m ih =>
    rw [List.map_cons]
    by_cases h : a.1 == k
    · rw [if_pos h]
      simp only [lookupKey]
      have hk : (k == k) = true := by simp
      rw [if_pos hk, if_pos h]
      rfl
    · rw [if_neg h]
      simp only [lookupKey]
      rw [if_neg h, if_neg h]
      exact ih

theorem lookupKey_map_replace_other (m : List (String × File)) (k k1 : String)
    (v : File) (h : k1 ≠ k) :
    lookupKey (m.map (fun p => if p.1 == k then (k, v) else p)) k1 =
      lookupKey m k1 := by
  induction m with
  | nil => rfl
  | cons a m ih =>
    rw [List.map_cons]
    by_cases ha : a.1 == k
    · have ha1 : a.1 = k := by simpa using ha
      have hk1 : (k == k1) = false := by
        simp only [beq_eq_false_iff_ne, ne_eq]
        exact fun hc => h hc.symm
      have ha2 : (a.1 == k1) = false := by rw [ha1]; exact hk1
      rw [if_pos ha]
      simp only [lookupKey]
      rw [if_neg (by simp [hk1]), if_neg (by simp [ha2])]
      exact ih
    · rw [if_neg ha]
      simp only [lookupKey]
      by_cases ha1 : a.1 == k1
      · rw [if_pos ha1, if_pos ha1]
      · rw [if_neg ha1, if_neg ha1]
        exact ih

theorem lookupKey_none_of_any_false (m : List (String × File)) (k : String)
    (h : m.any (fun p => p.1 == k) = false) : lookupKey m k = none := by
  induction m with
  | nil => rfl
  | cons a m ih =>
    simp only [List.any_cons, Bool.or_eq_false_iff] at h
    simp [lookupKey, h.1, ih h.2]

theorem lookupKey_isSome_of_any_true (m : List (String × File)) (k : String)
    (h : m.any (fun p => p.1 == k) = true) : ∃ v, lookupKey m k = some v := by
  induction m with
  | nil => simp at h
  | cons a m ih =>
    by_cases ha : a.1 == k
    · exact ⟨a.2, by simp [lookupKey, ha]⟩
    · simp only [List.any_cons, ha, Bool.false_or] at h
      obtain ⟨v, hv⟩ := ih h
      exact ⟨v, by simp [lookupKey, ha, hv]⟩

theorem lookupKey_setKey_self (m : List (String × File)) (k : String) (v : File) :
    lookupKey (setKey m k v) k = some v := by
  unfold setKey
  by_cases hany : m.any (fun p => p.1 == k)
  · rw [if_pos hany, lookupKey_map_replace]
    obtain ⟨v0, hv0⟩ := lookupKey_isSome_of_any_true m k hany
    rw [hv0]
    rfl
  · have hfalse : m.any (fun p => p.1 == k) = false := by
      cases hb : m.any (fun p => p.1 == k)
      · rfl
      · exact absurd hb hany
    rw [if_neg hany, lookupKey_append, lookupKey_none_of_any_false m k hfalse]
    simp [lookupKey]

theorem lookupKey_setKey_other (m : List (String × File)) (k k1 : String)
    (v : File) (h : k1 ≠ k) :
    lookupKey (setKey m k v) k1 = lookupKey m k1 := by
  unfold setKey
  by_cases hany : m.any (fun p => p.1 == k)
  · rw [if_pos hany]
    exact lookupKey_map_replace_other m k k1 v h
  · rw [if_neg hany, lookupKey_append]
    have hk : (k == k1) = false := by
      simp only [beq_eq_false_iff_ne, ne_eq]
      exact fun hc => h hc.symm
    cases hm : lookupKey m k1 with
    | some v0 => simp [hm]
    | none => simp [hm, lookupKey, hk]

theorem lookupKey_updStep_other (ls : List (String × Int))
    (m : List (String × File)) (g : File) (k : String) (h : g.id ≠ k) :
    lookupKey (updStep ls m g) k = lookupKey m k := by
  unfold updStep
  cases lookupKey ls g.id with
  | none => rfl
  | some t =>
    by_cases ht : g.lastSync - t > 0
    · simp only [ht, if_true, ite_true]
      exact lookupKey_setKey_other m g.id k g (Ne.symm h)
    · simp [ht]

theorem lookupKey_foldl_updStep_not_mem (ls : List (String × Int))
    (fs : List File) :
    ∀ (m : List (String × File)) (k : String), (∀ g ∈ fs, g.id ≠ k) →
      lookupKey (fs.foldl (updStep ls) m) k = lookupKey m k := by
  induction fs with
  | nil => intro m k _; rfl
  | cons g rest ih =>
    intro m k hne
    rw [List.foldl_cons,
      ih (updStep ls m g) k (fun x hx => hne x (List.mem_cons_of_mem g hx)),
      lookupKey_updStep_other ls m g k (hne g (List.mem_cons_self g rest))]

theorem lookupKey_buildUpdate_fold (ls : List (String × Int)) (fs : List File) :
    ∀ (m : List (String × File)) (f : File), f ∈ fs → (fs.map File.id).Nodup →
      lookupKey (fs.foldl (updStep ls) m) f.id =
        (match lookupKey ls f.id with
         | some t => if f.lastSync - t > 0 then some f else lookupKey m f.id
         | none => lookupKey m f.id) := by
  induction fs with
  | nil =>
    intro m f hf _
    cases hf
  | cons g rest ih =>
    intro m f hf hnodup
    have hnotin : g.id ∉ rest.map File.id := by
      have h := hnodup
      simp only [List.map_cons, List.nodup_cons] at h
      exact h.1
    rcases List.mem_cons.mp hf with rfl | hfr
    · rw [List.foldl_cons,
        lookupKey_foldl_updStep_not_mem ls rest (updStep ls m f) f.id
          (by
            intro x hx hcontra
            exact hnotin (hcontra ▸ List.mem_map_of_mem File.id hx))]
      unfold updStep
      cases lookupKey ls f.id with
      | none => rfl
      | some t =>
        by_cases ht : f.lastSync - t > 0
        · simp only [ht, if_true, ite_true]
          exact lookupKey_setKey_self m f.id f
        · simp [ht]
    · have hgne : g.id ≠ f.id := by
        intro hcontra
        exact hnotin (hcontra.symm ▸ List.mem_map_of_mem File.id hfr)
      rw [List.foldl_cons,
        ih (updStep ls m g) f hfr
          (by
            have h := hnodup
            simp only [List.map_cons, List.nodup_cons] at h
            exact h.2),
        lookupKey_updStep_other ls m g f.id hgne]

/-- C7: for every file of a directory visited by the refresh pass
(`buildUpdate`, applied by `BuildToUpdate`/`walkU` to each visited
directory), the file is assigned into `ToUpdate` exactly when its ID is
already present in `LastSync` and its current timestamp is strictly greater
than the recorded baseline; for a file whose ID is absent from `LastSync`
(or whose timestamp is not strictly newer), the `ToUpdate` entry at that ID
is exactly what it was before the pass — new files are never inserted. -/
theorem c7_toUpdate_iff_known_and_newer (d : Directory) (idx : SyncIndex)
    (f : File) (hmem : f ∈ d.Files) (hnodup : (d.Files.map File.id).Nodup) :
    lookupKey (buildUpdate d idx).ToUpdate f.id =
      (match lookupKey idx.LastSync f.id with
       | some t => if t < f.lastSync then some f else lookupKey idx.ToUpdate f.id
       | none => lookupKey idx.ToUpdate f.id) := by
  unfold buildUpdate
  dsimp only
  rw [lookupKey_buildUpdate_fold idx.LastSync d.Files idx.ToUpdate f hmem hnodup]
  cases lookupKey idx.LastSync f.id with
  | none => rfl
  | some t =>
    dsimp only
    by_cases h : f.lastSync - t > 0
    · rw [if_pos h, if_pos (by omega)]
    · rw [if_neg h, if_neg (by omega)]

/-- C7 witness: a baselined file whose live timestamp is strictly newer is
inserted into `ToUpdate` by the pass. -/
theorem c7_toUpdate_iff_known_and_newer_witness :
    lookupKey (buildUpdate
        (Directory.mk "o" [{ id := "fa", size := 1, lastSync := 5 }] [])
        { UserID := "o", LastSync := [("fa", 3)], ToUpdate := [] }).ToUpdate "fa" =
      some { id := "fa", size := 1, lastSync := 5 } := by
  have h := c7_toUpdate_iff_known_and_newer
    (Directory.mk "o" [{ id := "fa", size := 1, lastSync := 5 }] [])
    { UserID := "o", LastSync := [("fa", 3)], ToUpdate := [] }
    { id := "fa", size := 1, lastSync := 5 }
    (by simp [Directory.Files]) (by simp [Directory.Files])
  rw [h]
  rfl

/-- C9 (amended): `Prune` and `GetLargeFiles` partition a list of files with
pairwise-distinct IDs by the strict comparison with `MAX`: a file strictly
larger than `MAX` appears in the oversized part and not in the pruned part,
and a file of size at most `MAX` — including exactly `MAX` — appears in the
pruned part and not in the oversized part; hence each input file lands in
exactly one of the two parts. The original claim placed the at-`MAX`
boundary on the oversized side, which the strict `>` in `GetLargeFiles`
refutes. -/
theorem c9_strict_partition (files : List File)
    (hnodup : (files.map File.id).Nodup) (f : File) (hf : f ∈ files) :
    (MAX < f.size → f ∈ GetLargeFiles files ∧ f ∉ Prune files) ∧
    (f.size ≤ MAX → f ∈ Prune files ∧ f ∉ GetLargeFiles files) := by
  have hlen : files.length ≠ 0 := by
    simpa [List.length_eq_zero] using List.ne_nil_of_mem hf
  have hglf : GetLargeFiles files = files.filter (fun g => g.size > MAX) := by
    unfold GetLargeFiles
    rw [if_neg hlen]
  have hinj := List.inj_on_of_nodup_map hnodup
  constructor
  · intro hbig
    have hfl : f ∈ files.filter (fun g => g.size > MAX) :=
      List.mem_filter.mpr ⟨hf, by simpa using hbig⟩
    constructor
    · rw [hglf]
      exact hfl
    · intro hmem
      unfold Prune Diff at hmem
      rcases List.mem_append.mp hmem with hleft | hright
      · obtain ⟨-, hpred⟩ := List.mem_filter.mp hleft
        rw [hglf] at hpred
        simp only [decide_eq_true_eq] at hpred
        exact hpred (List.any_eq_true.mpr ⟨f, hfl, by simp⟩)
      · obtain ⟨hmemlg, hpred⟩ := List.mem_filter.mp hright
        simp only [decide_eq_true_eq] at hpred
        exact hpred (List.any_eq_true.mpr ⟨f, hf, by simp⟩)
  · intro hsmall
    constructor
    · unfold Prune Diff
      apply List.mem_append_left
      apply List.mem_filter.mpr
      refine ⟨hf, ?_⟩
      simp only [decide_eq_true_eq]
      intro hany
      obtain ⟨g, hg, hgid⟩ := List.any_eq_true.mp hany
      rw [hglf] at hg
      obtain ⟨hgmem, hgsize⟩ := List.mem_filter.mp hg
      have hgf : g = f := hinj hgmem hf (by simpa using hgid)
      rw [hgf] at hgsize
      simp only [decide_eq_true_eq] at hgsize
      omega
    · intro hmem
      rw [hglf] at hmem
      obtain ⟨-, hpred⟩ := List.mem_filter.mp hmem
      simp only [decide_eq_true_eq] at hpred
      omega

/-- C9 witness: a one-file list with a small file lands in the pruned part
and not in the oversized part. -/
theorem c9_strict_partition_witness :
    ({ id := "w", size := 1, lastSync := 0 } : File) ∈
        Prune [{ id := "w", size := 1, lastSync := 0 }] ∧
      ({ id := "w", size := 1, lastSync := 0 } : File) ∉
        GetLargeFiles [{ id := "w", size := 1, lastSync := 0 }] :=
  (c9_strict_partition [{ id := "w", size := 1, lastSync := 0 }]
      (by decide) { id := "w", size := 1, lastSync := 0 } (by decide)).2 (by decide)
